import Mathlib

/-!
# Verification of the kendryte-hal `xtask` firmware-image pipeline

This file shallowly embeds the firmware-image generation and ELF-flattening
code of the `xtask` crate (`src/xtask/src/generate/image.rs`,
`src/xtask/src/generate/firmware.rs`, `src/xtask/src/convert/elf.rs`,
`src/xtask/src/main.rs`) and proves the specified properties about it.

Modelling conventions:
* Bytes are `Nat` values (< 256 for real data; no arithmetic in the pipeline
  ever operates on byte values, only on lengths, so no masking is needed).
* Rust `Vec<u8>` is `List Nat`; `Result<T, XtaskError>` is `Except XtaskError T`.
* `usize as i32` followed by `to_le_bytes` yields the four low-order
  little-endian bytes of the value, i.e. the little-endian encoding of the
  length modulo 2^32 (`toLeBytes4`).
* The crate `src/xtask/src/generate/config.rs` is declared by
  `generate/mod.rs` but absent from the sources; its constants (MAGIC,
  VERSION, key material) and the external cryptographic crates (`sha2`,
  `sm3`, `sm4`, `aes-gcm`, `sm2`, `rsa`) are modelled as an explicit
  environment value `Env` (see the spec, which calls this the `KeyMaterial`
  constant table and treats the primitives as external collaborators).
* `println!`/`print!` logging is pure output and is dropped.
* The build hosts of this crate are little-endian, so `i32::to_ne_bytes`
  (used once, in `gen_firmware`) coincides with `to_le_bytes` and is
  modelled by `toLeBytes4` as well.
-/

/-- Little-endian byte encoding of `(n as i32)` via `to_le_bytes`:
the four low-order bytes of `n`. -/
def toLeBytes4 (n : Nat) : List Nat :=
  [n % 256, n / 256 % 256, n / 65536 % 256, n / 16777216 % 256]

/-- Decode a 4-byte little-endian field back to a `Nat` (0 on malformed input);
used only in theorem statements to talk about the value a reader of the image
recovers from the header. -/
def decodeLe4 (l : List Nat) : Nat :=
  match l with
  | [a, b, c, d] => a + 256 * b + 65536 * c + 16777216 * d
  | _ => 0

theorem decodeLe4_toLeBytes4 (n : Nat) : decodeLe4 (toLeBytes4 n) = n % 4294967296 := by
  simp [decodeLe4, toLeBytes4]
  omega

theorem length_toLeBytes4 (n : Nat) : (toLeBytes4 n).length = 4 := rfl

/-- Error type of the `xtask` crate (`src/xtask/src/error.rs`), restricted to
the constructors the embedded code can produce.  `panicSectionOffset` is not an
`XtaskError` variant in the source: it models the process abort caused by the
`.expect("Section file range not found!")` panic in `get_section_offset`
(`src/xtask/src/convert/elf.rs:108-113`). -/
inductive XtaskError where
  | invalidEncryptionType : XtaskError
  | aesError (msg : String) : XtaskError
  | rsaError (msg : String) : XtaskError
  | sm2Error (msg : String) : XtaskError
  | rsaParseError (msg : String) : XtaskError
  | elfParseError (msg : String) : XtaskError
  | sectionSizeOverflow (n : Nat) : XtaskError
  | panicSectionOffset : XtaskError
  deriving DecidableEq, Repr

/-- Encryption types supported for firmware
(`src/xtask/src/generate/image.rs:24-30`, discriminants `None = 0`,
`Sm4 = 1`, `Aes = 2`, with `None` as the `#[default]`). -/
inductive EncryptionType where
  | none : EncryptionType
  | sm4 : EncryptionType
  | aes : EncryptionType
  deriving DecidableEq, Repr

/-- The Rust enum discriminant, i.e. the value of `encryption as i32`. -/
def EncryptionType.toI32 : EncryptionType → Nat
  | .none => 0
  | .sm4 => 1
  | .aes => 2

/-- `encryption.unwrap_or_default()` as performed by `run` in
`src/xtask/src/main.rs:26,46`; the derived `Default` of `EncryptionType`
is `None` (the `#[default]` variant). -/
def encryption_unwrap_or_default (o : Option EncryptionType) : EncryptionType :=
  o.getD EncryptionType.none

/-- Modelled from the spec: the constants of the absent file
`src/xtask/src/generate/config.rs` (the spec's `KeyMaterial` constant table:
MAGIC is the 8-byte ASCII magic marker, VERSION the fixed version tag,
ID/ID_LEN/PUBLIC_KEY_X/PUBLIC_KEY_Y the SM2 identity block and public key,
N/E the RSA modulus and exponent already serialized as `n.to_bytes_be()` and
`e.to_le_bytes()`), together with the external cryptographic primitives
(crates `sha2`, `sm3`, `sm4`+`cbc`, `aes-gcm`, `sm2`, `rsa`), which the spec
scopes out as external collaborators specified at their interface boundary.
The key constants consumed only inside a primitive (SM4_KEY/SM4_IV,
INITIAL_AES_KEY/INITIAL_AES_IV/ADD_AUTH_DATA, PRIVATE_KEY/K/D) are folded
into the corresponding primitive function. -/
structure Env where
  /-- `MAGIC.as_bytes()`; the spec fixes its length to 8. -/
  magic : List Nat
  /-- `VERSION` bytes prepended to the firmware. -/
  version : List Nat
  /-- `ID_LEN` bytes. -/
  idLenBytes : List Nat
  /-- `ID.as_bytes()`. -/
  id : List Nat
  /-- `Sm2::EQUATION_A.to_bytes()` (external sm2 crate curve constant). -/
  eqA : List Nat
  /-- `Sm2::EQUATION_B.to_bytes()`. -/
  eqB : List Nat
  /-- `Sm2::GENERATOR.0.to_bytes()`. -/
  genX : List Nat
  /-- `Sm2::GENERATOR.1.to_bytes()`. -/
  genY : List Nat
  /-- `PUBLIC_KEY_X`. -/
  pubX : List Nat
  /-- `PUBLIC_KEY_Y`. -/
  pubY : List Nat
  /-- RSA modulus serialized big-endian, `n.to_bytes_be()`. -/
  nBE : List Nat
  /-- RSA public exponent serialized as 4 little-endian bytes, `e.to_le_bytes()`. -/
  eLE : List Nat
  /-- SHA-256 (crate `sha2`): message to 32-byte digest. -/
  sha256 : List Nat → List Nat
  /-- SM3 (crate `sm3`): message to 32-byte digest. -/
  sm3 : List Nat → List Nat
  /-- SM4-CBC with PKCS#7 padding under SM4_KEY/SM4_IV
  (`encrypt_padded_vec_mut::<Pkcs7>`): plaintext to ciphertext. -/
  sm4CbcEncrypt : List Nat → List Nat
  /-- AES-256-GCM detached encryption under INITIAL_AES_KEY/INITIAL_AES_IV
  with associated data ADD_AUTH_DATA (`encrypt_in_place_detached`):
  plaintext to (same-length ciphertext, 16-byte tag); the error string is the
  one passed to `XtaskError::AesError`. -/
  aesGcmEncryptDetached : List Nat → Except String (List Nat × List Nat)
  /-- SM2 signing of a prehash with the fixed nonce K under PRIVATE_KEY/ID
  (`sign_prehash_with_k`), including the fallible key-material setup
  (`ScalarPrimitive::from_slice(PRIVATE_KEY)`, `SigningKey::new`,
  `Scalar::from_slice(K)`): prehash to (r bytes, s bytes). -/
  sm2SignPrehashWithK : List Nat → Except XtaskError (List Nat × List Nat)
  /-- RSA-2048 PKCS#1 v1.5 signing over SHA-256 of the tag under the key
  built from N/E/D (`SigningKey::<Sha256>::new(private_key)` + `sign`),
  including the fallible hex parsing of N/E/D and
  `RsaPrivateKey::from_components`: tag to signature bytes. -/
  rsaSignTag : List Nat → Except XtaskError (List Nat)

/-- `prepare_firmware_with_version` (`image.rs:74-79`): prepend VERSION. -/
def prepare_firmware_with_version (env : Env) (firmware : List Nat) : List Nat :=
  env.version ++ firmware

/-- `add_header_info` (`image.rs:84-87`): append the firmware length and the
encryption type, each as a little-endian 32-bit integer. -/
def add_header_info (image : List Nat) (len : Nat) (encryption : EncryptionType) : List Nat :=
  image ++ toLeBytes4 len ++ toLeBytes4 encryption.toI32

/-- `encrypt_sm4` (`image.rs:218-222`). -/
def encrypt_sm4 (env : Env) (firmware_with_version : List Nat) : List Nat :=
  env.sm4CbcEncrypt firmware_with_version

/-- `encrypt_aes` (`image.rs:168-180`): AES-GCM detached encryption, the tag
appended to the ciphertext; returns (ciphertext-with-tag, tag). -/
def encrypt_aes (env : Env) (firmware_with_version : List Nat) :
    Except XtaskError (List Nat × List Nat) := do
  match env.aesGcmEncryptDetached firmware_with_version with
  | .error e => .error (.aesError e)
  | .ok (ciphertext, tag) => .ok (ciphertext ++ tag, tag)

/-- The Z block of the SM2 signature (`image.rs:240-248` and, identically,
`firmware.rs:117-125`): identity length, identity, curve parameters,
generator point, public key. -/
def sm2_z (env : Env) : List Nat :=
  env.idLenBytes ++ env.id ++ env.eqA ++ env.eqB ++ env.genX ++ env.genY
    ++ env.pubX ++ env.pubY

/-- The signed SM3 digest (`image.rs:250-261` and, identically,
`firmware.rs:127-138`): SM3(SM3(Z) ‖ ciphertext). -/
def sm2_e (env : Env) (ciphertext : List Nat) : List Nat :=
  env.sm3 (env.sm3 (sm2_z env) ++ ciphertext)

/-- `prepare_sm2_signature` (`image.rs:227-274`): build the Z block from the
identity and curve constants, hash it with SM3, hash (Z_A ‖ ciphertext) with
SM3, and sign the digest with the fixed nonce K.  Returns
(signature = r ‖ s, r, s). -/
def prepare_sm2_signature (env : Env) (ciphertext : List Nat) :
    Except XtaskError (List Nat × List Nat × List Nat) := do
  let (r, s) ← env.sm2SignPrehashWithK (sm2_e env ciphertext)
  .ok (r ++ s, r, s)

/-- `prepare_rsa_signature` (`image.rs:185-214`): sign the AES-GCM tag with
RSA PKCS#1 v1.5; returns (signature, n big-endian bytes, e little-endian
bytes). -/
def prepare_rsa_signature (env : Env) (tag : List Nat) :
    Except XtaskError (List Nat × List Nat × List Nat) := do
  let signature ← env.rsaSignTag tag
  .ok (signature, env.nBE, env.eLE)

/-- `prepare_id_info` (`image.rs:293-303`): ID length, ID bytes, and zero
padding up to `512 - 32*4` bytes total. -/
def prepare_id_info (env : Env) : List Nat :=
  toLeBytes4 env.id.length ++ env.id ++ List.replicate (512 - 32 * 4 - env.id.length) 0

/-- `add_sm2_info` (`image.rs:278-288`): ID info, public key, r, s. -/
def add_sm2_info (env : Env) (image : List Nat) (r s : List Nat) : List Nat :=
  image ++ prepare_id_info env ++ env.pubX ++ env.pubY ++ r ++ s

/-- `handle_none_encryption` (`image.rs:92-111`): header, SHA-256 digest of
the versioned firmware, `516 - 32` zero bytes, then the versioned firmware
itself. -/
def handle_none_encryption (env : Env) (image : List Nat) (firmware : List Nat) :
    Except XtaskError (List Nat) := do
  let firmware_with_version := prepare_firmware_with_version env firmware
  let image := add_header_info image firmware_with_version.length .none
  let hash := env.sha256 firmware_with_version
  .ok (image ++ hash ++ List.replicate (516 - 32) 0 ++ firmware_with_version)

/-- `handle_sm4_encryption` (`image.rs:116-134`). -/
def handle_sm4_encryption (env : Env) (image : List Nat) (firmware : List Nat) :
    Except XtaskError (List Nat) := do
  let firmware_with_version := prepare_firmware_with_version env firmware
  let ciphertext := encrypt_sm4 env firmware_with_version
  let image := add_header_info image ciphertext.length .sm4
  let (_signature, r, s) ← prepare_sm2_signature env ciphertext
  .ok (add_sm2_info env image r s ++ ciphertext)

/-- `handle_aes_encryption` (`image.rs:139-163`). -/
def handle_aes_encryption (env : Env) (image : List Nat) (firmware : List Nat) :
    Except XtaskError (List Nat) := do
  let firmware_with_version := prepare_firmware_with_version env firmware
  let (ciphertext, tag) ← encrypt_aes env firmware_with_version
  let image := add_header_info image ciphertext.length .aes
  let (signature, n, e) ← prepare_rsa_signature env tag
  .ok (image ++ n ++ e ++ signature ++ ciphertext)

/-- The final padding step of `gen_image` (`image.rs:63-66`): pad with zero
bytes to the next multiple of 512 (only when not already a multiple). -/
def padTo512 (image : List Nat) : List Nat :=
  if image.length % 512 ≠ 0 then image ++ List.replicate (512 - image.length % 512) 0
  else image

/-- `gen_image` (`image.rs:51-69`): 0x100000 zero bytes, the magic, the
scheme-specific block, padded to a multiple of 512 bytes. -/
def gen_image (env : Env) (firmware : List Nat) (encryption : EncryptionType) :
    Except XtaskError (List Nat) := do
  let image := List.replicate 0x100000 0 ++ env.magic
  let image ← match encryption with
    | .none => handle_none_encryption env image firmware
    | .sm4 => handle_sm4_encryption env image firmware
    | .aes => handle_aes_encryption env image firmware
  .ok (padTo512 image)

/-- `gen_firmware` (`src/xtask/src/generate/firmware.rs:52-265`), the older
two-stage path: the magic followed by the same header/auth/payload block,
without the 0x100000-byte zero region and without the 512-byte padding.
The `None` arm stores the length with `to_ne_bytes` (`firmware.rs:68`), which
on the little-endian build hosts equals `to_le_bytes`.  The debugging hash
computations over `sm2_pub_key` / `pub_key` (`firmware.rs:176-187,252-257`)
only feed `println!` and are dropped. -/
def gen_firmware (env : Env) (data : List Nat) (encryption : EncryptionType) :
    Except XtaskError (List Nat) := do
  let data_with_version := env.version ++ data
  let firmware := env.magic
  match encryption with
  | .none =>
    let firmware := firmware ++ toLeBytes4 data_with_version.length
      ++ toLeBytes4 EncryptionType.none.toI32
    let data_with_version_hash := env.sha256 data_with_version
    let firmware := firmware ++ data_with_version_hash
    let firmware := firmware ++ List.replicate (516 - 32) 0
    .ok (firmware ++ data_with_version)
  | .sm4 =>
    let ciphertext := env.sm4CbcEncrypt data_with_version
    let firmware := firmware ++ toLeBytes4 ciphertext.length
      ++ toLeBytes4 EncryptionType.sm4.toI32
    let (r, s) ← env.sm2SignPrehashWithK (sm2_e env ciphertext)
    let firmware := firmware ++ toLeBytes4 env.id.length
    let id_bytes := env.id ++ List.replicate (512 - 32 * 4 - env.id.length) 0
    let firmware := firmware ++ id_bytes
    let firmware := firmware ++ env.pubX ++ env.pubY ++ r ++ s
    .ok (firmware ++ ciphertext)
  | .aes =>
    let (ciphertext, tag) ←
      match env.aesGcmEncryptDetached data_with_version with
      | .error e => .error (XtaskError.aesError e)
      | .ok (c, t) => .ok (c ++ t, t)
    let firmware := firmware ++ toLeBytes4 ciphertext.length
      ++ toLeBytes4 EncryptionType.aes.toI32
    let signature ← env.rsaSignTag tag
    let firmware := firmware ++ env.nBE ++ env.eLE
    let firmware := firmware ++ signature
    .ok (firmware ++ ciphertext)

/-! ## The ELF flattening pipeline (`src/xtask/src/convert/elf.rs`)

The `object` crate's parsing is external; the embedding starts from the
parsed view that `elf_to_bin_bytes` consumes: for each section, its name,
flags, kind, the result of `compressed_file_range()` and the result of
`data()`.  `Option.none` in `fileRange` / `data` models the corresponding
`Err(_)` result of the crate accessor. -/

/-- Section kinds, reduced to the distinction the code makes
(`SectionKind::UninitializedData` vs. everything else), with a few named
non-uninitialized kinds to build concrete examples. -/
inductive SecKind where
  | text : SecKind
  | data : SecKind
  | readOnlyData : SecKind
  | uninitializedData : SecKind
  | other : SecKind
  deriving DecidableEq, Repr

/-- Section flags: the ELF variant carries `sh_flags`; any other container
flavor matches the `_ => false` arm of `get_loadable_sections`. -/
inductive SecFlags where
  | elf (shFlags : Nat) : SecFlags
  | nonElf : SecFlags
  deriving DecidableEq, Repr

/-- `object::CompressedFileRange`, restricted to the `offset` field, the only
one the code reads. -/
structure FileRange where
  offset : Nat
  deriving DecidableEq, Repr

/-- The parsed view of one `object::Section` as consumed by the code. -/
structure ElfSection where
  name : String
  flags : SecFlags
  kind : SecKind
  /-- result of `compressed_file_range()`: `none` models `Err(_)`. -/
  fileRange : Option FileRange
  /-- result of `data()`: `none` models `Err(_)`. -/
  data : Option (List Nat)
  deriving DecidableEq, Repr

/-- `SHF_ALLOC` = 0x2. -/
def SHF_ALLOC : Nat := 2

/-- The selection condition of `get_loadable_sections` (`elf.rs:93-98`):
ELF `sh_flags` with the ALLOC bit set, and kind not `UninitializedData`. -/
def isLoadableSelected (s : ElfSection) : Bool :=
  (match s.flags with
   | .elf shFlags => shFlags % 4 / 2 == 1
   | .nonElf => false)
  && s.kind != SecKind.uninitializedData

/-- The sort key of `get_section_offset` when the file range resolves; the
`none` case is the panic and never reaches a comparison in the `ok` branch
of `rustSortByOffset`. -/
def sectionOffsetD (s : ElfSection) : Nat :=
  match s.fileRange with
  | some fr => fr.offset
  | none => 0

/-- `sections.sort_by_key(|s| get_section_offset(s))` with Rust semantics:
for fewer than two elements the sort returns immediately and evaluates no
key; for two or more elements every element's key is evaluated at least once,
so `get_section_offset`'s `.expect` panics (modelled as
`XtaskError.panicSectionOffset`) as soon as any section's
`compressed_file_range()` fails.  Rust's `sort_by_key` is stable;
`List.mergeSort` is its stable counterpart. -/
def rustSortByOffset (l : List ElfSection) : Except XtaskError (List ElfSection) :=
  if l.length ≤ 1 then .ok l
  else if l.all (fun s => s.fileRange.isSome) then
    .ok (l.mergeSort (fun a b => sectionOffsetD a ≤ sectionOffsetD b))
  else .error .panicSectionOffset

/-- `get_loadable_sections` (`elf.rs:88-104`): filter ALLOC non-NOBITS
sections and sort them by file offset. -/
def get_loadable_sections (sections : List ElfSection) : Except XtaskError (List ElfSection) :=
  rustSortByOffset (sections.filter isLoadableSelected)

/-- `sort_sections_with_offset` (`elf.rs:120-122`). -/
def sort_sections_with_offset (sections : List ElfSection) : Except XtaskError (List ElfSection) :=
  rustSortByOffset sections

/-- The `Entry` struct local to `process_sections` (`elf.rs:142-147`). -/
structure Entry where
  name : String
  fileOff : Nat
  fileSize : Nat
  data : List Nat
  deriving DecidableEq, Repr

/-- One iteration of the entry-gathering loop of `process_sections`
(`elf.rs:150-172`): skip a residual NOBITS section, skip a section whose
file range or data does not resolve, and otherwise record an `Entry` whose
`file_size` is the actual data length (`elf.rs:166-171`). -/
def collectFn (s : ElfSection) : Option Entry :=
  if s.kind = SecKind.uninitializedData then none
  else match s.fileRange, s.data with
    | some fr, some d => some ⟨s.name, fr.offset, d.length, d⟩
    | _, _ => none

/-- The entry-gathering loop of `process_sections` (`elf.rs:149-172`). -/
def collectEntries (sections : List ElfSection) : List Entry :=
  sections.filterMap collectFn

/-- `u64` addition (`e.file_off + e.file_size` at `elf.rs:182`); release-mode
Rust wraps on overflow. -/
def u64add (x y : Nat) : Nat := (x + y) % 18446744073709551616

/-- `usize::MAX` on the 64-bit hosts this tool builds for. -/
def USIZE_MAX : Nat := 18446744073709551615

/-- One `copy_from_slice` write (`elf.rs:190-200`): overwrite
`out[start .. start + src.length]` with `src`.  Equals the Rust copy whenever
`start + src.length ≤ out.length`, which `process_sections` guarantees. -/
def writeAt (out : List Nat) (start : Nat) (src : List Nat) : List Nat :=
  out.take start ++ src ++ out.drop (start + src.length)

/-- The copy length of one entry (`elf.rs:198`):
`e.data.len().min(e.file_size as usize)`. -/
def copyLen (e : Entry) : Nat := min e.data.length e.fileSize

/-- The write of one entry (`elf.rs:190-199`). -/
def writeEntry (minOff : Nat) (out : List Nat) (e : Entry) : List Nat :=
  writeAt out (e.fileOff - minOff) (e.data.take (copyLen e))

/-- The write loop of `process_sections` (`elf.rs:190-200`). -/
def writeAll (minOff : Nat) (out : List Nat) (es : List Entry) : List Nat :=
  es.foldl (writeEntry minOff) out

/-- `process_sections` (`elf.rs:133-203`). -/
def process_sections (sections : List ElfSection) : Except XtaskError (List Nat) :=
  if sections = [] then .ok []
  else
    let entries := collectEntries sections
    if entries = [] then .ok []
    else
      let sorted := entries.mergeSort (fun a b => a.fileOff ≤ b.fileOff)
      match sorted with
      | [] => .ok []
      | e0 :: rest =>
        let minOff := e0.fileOff
        let maxEnd := ((e0 :: rest).map (fun e => u64add e.fileOff e.fileSize)).foldl max 0
        if maxEnd - minOff ≤ USIZE_MAX then
          .ok (writeAll minOff (List.replicate (maxEnd - minOff) 0) (e0 :: rest))
        else .error (.sectionSizeOverflow (maxEnd - minOff))

/-- `elf_to_bin_bytes` (`elf.rs:33-50`), starting from the parsed section
list (the `object::File::parse` step is the external crate's). -/
def elf_to_bin_bytes (sections : List ElfSection) : Except XtaskError (List Nat) := do
  let secs ← get_loadable_sections sections
  let secs ← sort_sections_with_offset secs
  process_sections secs

/-- `elf_to_image_bytes` (`elf.rs:8-12`). -/
def elf_to_image_bytes (env : Env) (sections : List ElfSection) (encryption : EncryptionType) :
    Except XtaskError (List Nat) := do
  let bin ← elf_to_bin_bytes sections
  let image ← gen_image env bin encryption
  .ok image

/-- The payload field of the protected block per scheme, i.e. the bytes the
handlers append last, after the auth material (used to state the
header-length invariant): the versioned payload for `None`
(`image.rs:108`), the SM4-CBC ciphertext for `Sm4` (`image.rs:131`), the
AES-GCM ciphertext with the 16-byte tag appended for `Aes`
(`image.rs:160,178`). -/
def schemePayloadE (env : Env) (fw : List Nat) : EncryptionType → Except XtaskError (List Nat)
  | .none => .ok (env.version ++ fw)
  | .sm4 => .ok (env.sm4CbcEncrypt (env.version ++ fw))
  | .aes =>
    match env.aesGcmEncryptDetached (env.version ++ fw) with
    | .error e => .error (.aesError e)
    | .ok (c, t) => .ok (c ++ t)

/-- A concrete environment used to instantiate theorems with hypotheses at
concrete inputs.  The byte constants and primitive functions are stand-in
values of the right shapes (8-byte magic, 32-byte digests, 16-byte tag),
not the real key material (which lives in the absent `config.rs`) nor the
real ciphers; the theorems hold for every environment. -/
def demoEnv : Env where
  magic := [75, 50, 51, 48, 73, 77, 65, 71]
  version := [0, 0, 0, 1]
  idLenBytes := [0, 0, 0, 16]
  id := List.replicate 16 49
  eqA := List.replicate 32 1
  eqB := List.replicate 32 2
  genX := List.replicate 32 3
  genY := List.replicate 32 4
  pubX := List.replicate 32 5
  pubY := List.replicate 32 6
  nBE := List.replicate 256 7
  eLE := [1, 0, 1, 0]
  sha256 := fun _ => List.replicate 32 8
  sm3 := fun _ => List.replicate 32 9
  sm4CbcEncrypt := fun l => l ++ List.replicate (16 - l.length % 16) 0
  aesGcmEncryptDetached := fun l => .ok (l, List.replicate 16 10)
  sm2SignPrehashWithK := fun _ => .ok (List.replicate 32 11, List.replicate 32 12)
  rsaSignTag := fun _ => .ok (List.replicate 256 13)

/-- A 2^32-byte input, used to exhibit the `usize as i32` wrap-around of the
header length field. -/
def cexFw : List Nat := List.replicate 4294967296 0

/-! ## Statement helpers for the ELF claims -/

/-- The entries that survive selection and resolution, in source order:
the sections `get_loadable_sections` keeps, put through the entry-gathering
loop of `process_sections`. -/
def entriesOf (ss : List ElfSection) : List Entry :=
  collectEntries (ss.filter isLoadableSelected)

/-- Minimum of a list of naturals (0 for the empty list); on a nonempty
list this is the `min_off` of `process_sections`. -/
def listMinD : List Nat → Nat
  | [] => 0
  | a :: l => l.foldl min a

/-- `min_off` over an entry list. -/
def entriesMinOff (E : List Entry) : Nat :=
  listMinD (E.map (fun e => e.fileOff))

/-- `max_end` over an entry list (with exact `Nat` addition; the theorems
assume section ends fit in `u64`, under which this agrees with the code's
`u64` addition). -/
def entriesMaxEnd (E : List Entry) : Nat :=
  (E.map (fun e => e.fileOff + e.fileSize)).foldl max 0

/-- `min_off` of `process_sections` expressed over the unsorted entry list. -/
def minOffOf (ss : List ElfSection) : Nat :=
  entriesMinOff (entriesOf ss)

/-- `max_end` of `process_sections` expressed over the unsorted entry list. -/
def maxEndOf (ss : List ElfSection) : Nat :=
  entriesMaxEnd (entriesOf ss)

/-- Position `p` of the output buffer is written by entry `e`
(coordinates relative to `minOff`). -/
def coversOut (minOff : Nat) (e : Entry) (p : Nat) : Prop :=
  e.fileOff - minOff ≤ p ∧ p < e.fileOff - minOff + copyLen e

/-- Entries `a` and `b` occupy disjoint output ranges. -/
def entryDisjoint (minOff : Nat) (a b : Entry) : Prop :=
  a.fileOff - minOff + copyLen a ≤ b.fileOff - minOff
    ∨ b.fileOff - minOff + copyLen b ≤ a.fileOff - minOff

/-- Concrete sections for instantiating the ELF theorems: a `.text` and a
`.data` section with contiguous file ranges and a `.bss`
(uninitialized-data) section between them in declaration order. -/
def demoTextSec : ElfSection :=
  ⟨".text", .elf 6, .text, some ⟨64⟩, some [19, 5, 0, 0]⟩

def demoDataSec : ElfSection :=
  ⟨".data", .elf 3, .data, some ⟨68⟩, some [18, 52, 86, 120]⟩

def demoBssSec : ElfSection :=
  ⟨".bss", .elf 3, .uninitializedData, some ⟨72⟩, some []⟩

/-- A selected section whose `compressed_file_range()` fails. -/
def badRangeSec : ElfSection :=
  ⟨".badrange", .elf 2, .data, Option.none, some [1, 2, 3]⟩

/-- A selected section whose file range resolves but whose `data()` fails. -/
def badDataSec : ElfSection :=
  ⟨".baddata", .elf 2, .data, some ⟨100⟩, Option.none⟩

/-! ## List-extraction helpers -/

theorem drop_exact (A C : List Nat) (n : Nat) (h : A.length = n) :
    (A ++ C).drop n = C := by
  subst h; exact List.drop_left A C

theorem take_exact (F R : List Nat) (m : Nat) (h : F.length = m) :
    (F ++ R).take m = F := by
  subst h; exact List.take_left F R

theorem drop2_exact (a b C : List Nat) (n : Nat) (h : a.length + b.length = n) :
    (a ++ (b ++ C)).drop n = C := by
  rw [← List.append_assoc]
  exact drop_exact (a ++ b) C n (by simpa using h)

theorem take2_exact (a b R : List Nat) (m : Nat) (h : a.length + b.length = m) :
    (a ++ (b ++ R)).take m = a ++ b := by
  rw [← List.append_assoc]
  exact take_exact (a ++ b) R m (by simpa using h)

theorem padTo512_append (L : List Nat) : ∃ r, padTo512 L = L ++ r := by
  unfold padTo512
  split
  · exact ⟨_, rfl⟩
  · exact ⟨[], by simp⟩

theorem padTo512_drop_take (L : List Nat) (n m : Nat) (h : n + m ≤ L.length) :
    ((padTo512 L).drop n).take m = (L.drop n).take m := by
  obtain ⟨r, hr⟩ := padTo512_append L
  rw [hr, List.drop_append_eq_append_drop, List.take_append_eq_append_take]
  have h1 : n - L.length = 0 := by omega
  have h2 : m - (L.length - n) = 0 := by omega
  simp [h1, h2]

theorem padTo512_length (L : List Nat) : (padTo512 L).length % 512 = 0 := by
  unfold padTo512
  split
  · simp only [List.length_append, List.length_replicate]
    omega
  · omega

theorem drop3_exact (a b c C : List Nat) (n : Nat)
    (h : a.length + b.length + c.length = n) : (a ++ (b ++ (c ++ C))).drop n = C := by
  rw [← List.append_assoc]
  exact drop2_exact (a ++ b) c C n (by simp only [List.length_append]; omega)

theorem drop4_exact (a b c d C : List Nat) (n : Nat)
    (h : a.length + b.length + c.length + d.length = n) :
    (a ++ (b ++ (c ++ (d ++ C)))).drop n = C := by
  rw [← List.append_assoc]
  exact drop3_exact (a ++ b) c d C n (by simp only [List.length_append]; omega)

theorem drop5_exact (a b c d e C : List Nat) (n : Nat)
    (h : a.length + b.length + c.length + d.length + e.length = n) :
    (a ++ (b ++ (c ++ (d ++ (e ++ C))))).drop n = C := by
  rw [← List.append_assoc]
  exact drop4_exact (a ++ b) c d e C n (by simp only [List.length_append]; omega)

theorem drop6_exact (a b c d e f C : List Nat) (n : Nat)
    (h : a.length + b.length + c.length + d.length + e.length + f.length = n) :
    (a ++ (b ++ (c ++ (d ++ (e ++ (f ++ C)))))).drop n = C := by
  rw [← List.append_assoc]
  exact drop5_exact (a ++ b) c d e f C n (by simp only [List.length_append]; omega)

/-! ## Shape lemmas: the exact byte layout `gen_image` and `gen_firmware`
produce in each scheme, by cases on the fallible primitive calls. -/

theorem gen_image_none_shape (env : Env) (fw : List Nat) :
    gen_image env fw .none = .ok (padTo512 (List.replicate 1048576 0 ++ (env.magic ++
      (toLeBytes4 (env.version ++ fw).length ++ (toLeBytes4 0 ++
      (env.sha256 (env.version ++ fw) ++ (List.replicate 484 0 ++ (env.version ++ fw)))))))) := by
  simp only [gen_image, handle_none_encryption, add_header_info, prepare_firmware_with_version,
    EncryptionType.toI32, List.append_assoc]
  rfl

theorem gen_image_sm4_shape_ok (env : Env) (fw r s : List Nat)
    (h : env.sm2SignPrehashWithK (sm2_e env (env.sm4CbcEncrypt (env.version ++ fw))) = .ok (r, s)) :
    gen_image env fw .sm4 = .ok (padTo512 (List.replicate 1048576 0 ++ (env.magic ++
      (toLeBytes4 (env.sm4CbcEncrypt (env.version ++ fw)).length ++ (toLeBytes4 1 ++
      (toLeBytes4 env.id.length ++ (env.id ++ (List.replicate (512 - 32 * 4 - env.id.length) 0 ++
      (env.pubX ++ (env.pubY ++ (r ++ (s ++ env.sm4CbcEncrypt (env.version ++ fw))))))))))))) := by
  simp only [gen_image, handle_sm4_encryption, encrypt_sm4, prepare_sm2_signature, add_sm2_info,
    prepare_id_info, add_header_info, prepare_firmware_with_version, EncryptionType.toI32,
    h, List.append_assoc, bind, Except.bind]

theorem gen_image_sm4_shape_err (env : Env) (fw : List Nat) (e : XtaskError)
    (h : env.sm2SignPrehashWithK (sm2_e env (env.sm4CbcEncrypt (env.version ++ fw))) = .error e) :
    gen_image env fw .sm4 = .error e := by
  simp only [gen_image, handle_sm4_encryption, encrypt_sm4, prepare_sm2_signature,
    prepare_firmware_with_version, h, bind, Except.bind]

theorem gen_image_aes_shape_ok (env : Env) (fw c t sig : List Nat)
    (ha : env.aesGcmEncryptDetached (env.version ++ fw) = .ok (c, t))
    (hr : env.rsaSignTag t = .ok sig) :
    gen_image env fw .aes = .ok (padTo512 (List.replicate 1048576 0 ++ (env.magic ++
      (toLeBytes4 (c ++ t).length ++ (toLeBytes4 2 ++ (env.nBE ++ (env.eLE ++
      (sig ++ (c ++ t))))))))) := by
  simp only [gen_image, handle_aes_encryption, encrypt_aes, prepare_rsa_signature,
    add_header_info, prepare_firmware_with_version, EncryptionType.toI32,
    ha, hr, List.append_assoc, bind, Except.bind]

theorem gen_image_aes_shape_errAes (env : Env) (fw : List Nat) (e : String)
    (ha : env.aesGcmEncryptDetached (env.version ++ fw) = .error e) :
    gen_image env fw .aes = .error (.aesError e) := by
  simp only [gen_image, handle_aes_encryption, encrypt_aes, prepare_firmware_with_version,
    ha, bind, Except.bind]

theorem gen_image_aes_shape_errRsa (env : Env) (fw c t : List Nat) (e : XtaskError)
    (ha : env.aesGcmEncryptDetached (env.version ++ fw) = .ok (c, t))
    (hr : env.rsaSignTag t = .error e) :
    gen_image env fw .aes = .error e := by
  simp only [gen_image, handle_aes_encryption, encrypt_aes, prepare_rsa_signature,
    prepare_firmware_with_version, ha, hr, bind, Except.bind]

theorem gen_firmware_none_shape (env : Env) (fw : List Nat) :
    gen_firmware env fw .none = .ok (env.magic ++
      (toLeBytes4 (env.version ++ fw).length ++ (toLeBytes4 0 ++
      (env.sha256 (env.version ++ fw) ++ (List.replicate 484 0 ++ (env.version ++ fw)))))) := by
  simp only [gen_firmware, EncryptionType.toI32, List.append_assoc]

theorem gen_firmware_sm4_shape_ok (env : Env) (fw r s : List Nat)
    (h : env.sm2SignPrehashWithK (sm2_e env (env.sm4CbcEncrypt (env.version ++ fw))) = .ok (r, s)) :
    gen_firmware env fw .sm4 = .ok (env.magic ++
      (toLeBytes4 (env.sm4CbcEncrypt (env.version ++ fw)).length ++ (toLeBytes4 1 ++
      (toLeBytes4 env.id.length ++ (env.id ++ (List.replicate (512 - 32 * 4 - env.id.length) 0 ++
      (env.pubX ++ (env.pubY ++ (r ++ (s ++ env.sm4CbcEncrypt (env.version ++ fw))))))))))) := by
  simp only [gen_firmware, EncryptionType.toI32, h, List.append_assoc, bind, Except.bind]

theorem gen_firmware_sm4_shape_err (env : Env) (fw : List Nat) (e : XtaskError)
    (h : env.sm2SignPrehashWithK (sm2_e env (env.sm4CbcEncrypt (env.version ++ fw))) = .error e) :
    gen_firmware env fw .sm4 = .error e := by
  simp only [gen_firmware, h, bind, Except.bind]

theorem gen_firmware_aes_shape_ok (env : Env) (fw c t sig : List Nat)
    (ha : env.aesGcmEncryptDetached (env.version ++ fw) = .ok (c, t))
    (hr : env.rsaSignTag t = .ok sig) :
    gen_firmware env fw .aes = .ok (env.magic ++
      (toLeBytes4 (c ++ t).length ++ (toLeBytes4 2 ++ (env.nBE ++ (env.eLE ++
      (sig ++ (c ++ t))))))) := by
  simp only [gen_firmware, EncryptionType.toI32, ha, hr, List.append_assoc, bind, Except.bind]

theorem gen_firmware_aes_shape_errAes (env : Env) (fw : List Nat) (e : String)
    (ha : env.aesGcmEncryptDetached (env.version ++ fw) = .error e) :
    gen_firmware env fw .aes = .error (.aesError e) := by
  simp only [gen_firmware, ha, bind, Except.bind]

theorem gen_firmware_aes_shape_errRsa (env : Env) (fw c t : List Nat) (e : XtaskError)
    (ha : env.aesGcmEncryptDetached (env.version ++ fw) = .ok (c, t))
    (hr : env.rsaSignTag t = .error e) :
    gen_firmware env fw .aes = .error e := by
  simp only [gen_firmware, ha, hr, bind, Except.bind]

/-! ## Claim theorems -/

/-- C2: for every input byte sequence and every scheme, when `gen_image`
succeeds, the length of the returned image is a multiple of 512. -/
theorem gen_image_length_multiple_of_512 (env : Env) (fw : List Nat) (enc : EncryptionType) :
    (gen_image env fw enc).map (fun img => img.length % 512)
      = (gen_image env fw enc).map (fun _ => 0) := by
  cases enc
  case none =>
    rw [gen_image_none_shape]
    simp only [Except.map, padTo512_length]
  case sm4 =>
    cases h : env.sm2SignPrehashWithK (sm2_e env (env.sm4CbcEncrypt (env.version ++ fw))) with
    | error e => rw [gen_image_sm4_shape_err env fw e h]; rfl
    | ok v =>
      obtain ⟨r, s⟩ := v
      rw [gen_image_sm4_shape_ok env fw r s h]
      simp only [Except.map, padTo512_length]
  case aes =>
    cases ha : env.aesGcmEncryptDetached (env.version ++ fw) with
    | error e => rw [gen_image_aes_shape_errAes env fw e ha]; rfl
    | ok v =>
      obtain ⟨c, t⟩ := v
      cases hr : env.rsaSignTag t with
      | error e => rw [gen_image_aes_shape_errRsa env fw c t e ha hr]; rfl
      | ok sig =>
        rw [gen_image_aes_shape_ok env fw c t sig ha hr]
        simp only [Except.map, padTo512_length]

/-- C7: `gen_image` is a deterministic function of the input bytes and the
scheme (given the same key-material environment): two runs on equal inputs
return byte-identical output.  In this embedding every primitive, including
the SM2 signer with its fixed nonce K and the AES cipher with its fixed
IV, is a pure function, so the result only depends on the arguments. -/
theorem gen_image_deterministic (env : Env) (fw₁ fw₂ : List Nat) (enc₁ enc₂ : EncryptionType)
    (hfw : fw₁ = fw₂) (henc : enc₁ = enc₂) :
    gen_image env fw₁ enc₁ = gen_image env fw₂ enc₂ := by
  rw [hfw, henc]

/-- Witness for C7 at a concrete input. -/
theorem gen_image_deterministic_witness :
    ([1, 2, 3] : List Nat) = [1, 2, 3] ∧ EncryptionType.sm4 = EncryptionType.sm4
      ∧ gen_image demoEnv [1, 2, 3] .sm4 = gen_image demoEnv [1, 2, 3] .sm4 :=
  ⟨rfl, rfl, gen_image_deterministic demoEnv [1, 2, 3] [1, 2, 3] .sm4 .sm4 rfl rfl⟩

/-- C8: converting an ELF directly to an image is exactly flattening it to a
raw binary and then generating the image from that binary; it fails exactly
when one of the two stages fails (with that stage's error). -/
theorem elf_to_image_bytes_composes (env : Env) (ss : List ElfSection) (enc : EncryptionType) :
    elf_to_image_bytes env ss enc = (elf_to_bin_bytes ss).bind (fun b => gen_image env b enc) := by
  cases h1 : elf_to_bin_bytes ss with
  | error e => simp [elf_to_image_bytes, h1, Except.bind, bind]
  | ok b =>
    simp only [elf_to_image_bytes, h1, Except.bind, bind]
    cases h2 : gen_image env b enc <;> simp [h2]

/-- C9: the older two-stage path and the newer single-stage path produce the
same byte layout: `gen_image` equals 0x100000 zero bytes, the `gen_firmware`
block, and zero padding to the next 512-byte boundary; equivalently, the
region of the image starting at offset 0x100000 of the length of the
firmware block is that block. -/
theorem gen_image_eq_firmware_block (env : Env) (fw : List Nat) (enc : EncryptionType) :
    gen_image env fw enc
      = (gen_firmware env fw enc).map (fun f => padTo512 (List.replicate 1048576 0 ++ f))
    ∧ (gen_firmware env fw enc).bind
        (fun f => (gen_image env fw enc).map (fun g => (g.drop 1048576).take f.length))
      = gen_firmware env fw enc := by
  have part1 : gen_image env fw enc
      = (gen_firmware env fw enc).map (fun f => padTo512 (List.replicate 1048576 0 ++ f)) := by
    cases enc
    case none =>
      rw [gen_image_none_shape, gen_firmware_none_shape]
      rfl
    case sm4 =>
      cases h : env.sm2SignPrehashWithK (sm2_e env (env.sm4CbcEncrypt (env.version ++ fw))) with
      | error e => rw [gen_image_sm4_shape_err env fw e h, gen_firmware_sm4_shape_err env fw e h]; rfl
      | ok v =>
        obtain ⟨r, s⟩ := v
        rw [gen_image_sm4_shape_ok env fw r s h, gen_firmware_sm4_shape_ok env fw r s h]
        rfl
    case aes =>
      cases ha : env.aesGcmEncryptDetached (env.version ++ fw) with
      | error e =>
        rw [gen_image_aes_shape_errAes env fw e ha, gen_firmware_aes_shape_errAes env fw e ha]; rfl
      | ok v =>
        obtain ⟨c, t⟩ := v
        cases hr : env.rsaSignTag t with
        | error e =>
          rw [gen_image_aes_shape_errRsa env fw c t e ha hr,
            gen_firmware_aes_shape_errRsa env fw c t e ha hr]
          rfl
        | ok sig =>
          rw [gen_image_aes_shape_ok env fw c t sig ha hr,
            gen_firmware_aes_shape_ok env fw c t sig ha hr]
          rfl
  refine ⟨part1, ?_⟩
  cases hf : gen_firmware env fw enc with
  | error e => rfl
  | ok f =>
    rw [part1, hf]
    simp only [Except.map, Except.bind, bind]
    obtain ⟨r, hr⟩ := padTo512_append (List.replicate 1048576 0 ++ f)
    rw [hr, List.append_assoc]
    rw [drop_exact (List.replicate 1048576 0) (f ++ r) 1048576 (by simp only [List.length_replicate])]
    rw [take_exact f r f.length rfl]

/-- C10: the 4-byte little-endian scheme identifier written immediately after
the length field is the enum discriminant: 0 for `None`, 1 for `Sm4`, 2 for
`Aes`; and an omitted `--encryption` CLI option resolves to the `None`
scheme. -/
theorem gen_image_scheme_identifier (env : Env) (fw : List Nat) (enc : EncryptionType)
    (hm : env.magic.length = 8) :
    encryption_unwrap_or_default Option.none = EncryptionType.none
    ∧ EncryptionType.toI32 .none = 0 ∧ EncryptionType.toI32 .sm4 = 1
    ∧ EncryptionType.toI32 .aes = 2
    ∧ toLeBytes4 0 = [0, 0, 0, 0] ∧ toLeBytes4 1 = [1, 0, 0, 0] ∧ toLeBytes4 2 = [2, 0, 0, 0]
    ∧ (gen_image env fw enc).map (fun img => (img.drop 1048588).take 4)
        = (gen_image env fw enc).map (fun _ => toLeBytes4 enc.toI32) := by
  refine ⟨rfl, rfl, rfl, rfl, rfl, rfl, rfl, ?_⟩
  cases enc
  case none =>
    rw [gen_image_none_shape]
    simp only [Except.map]
    rw [padTo512_drop_take _ 1048588 4
      (by simp only [List.length_append, List.length_replicate, length_toLeBytes4, hm]; omega)]
    rw [drop3_exact _ _ _ _ 1048588
      (by simp only [List.length_replicate, length_toLeBytes4, hm])]
    rw [take_exact _ _ 4 (length_toLeBytes4 _)]
    rfl
  case sm4 =>
    cases h : env.sm2SignPrehashWithK (sm2_e env (env.sm4CbcEncrypt (env.version ++ fw))) with
    | error e => rw [gen_image_sm4_shape_err env fw e h]; rfl
    | ok v =>
      obtain ⟨r, s⟩ := v
      rw [gen_image_sm4_shape_ok env fw r s h]
      simp only [Except.map]
      rw [padTo512_drop_take _ 1048588 4
        (by simp only [List.length_append, List.length_replicate, length_toLeBytes4, hm]; omega)]
      rw [drop3_exact _ _ _ _ 1048588
        (by simp only [List.length_replicate, length_toLeBytes4, hm])]
      rw [take_exact _ _ 4 (length_toLeBytes4 _)]
      rfl
  case aes =>
    cases ha : env.aesGcmEncryptDetached (env.version ++ fw) with
    | error e => rw [gen_image_aes_shape_errAes env fw e ha]; rfl
    | ok v =>
      obtain ⟨c, t⟩ := v
      cases hr : env.rsaSignTag t with
      | error e => rw [gen_image_aes_shape_errRsa env fw c t e ha hr]; rfl
      | ok sig =>
        rw [gen_image_aes_shape_ok env fw c t sig ha hr]
        simp only [Except.map]
        rw [padTo512_drop_take _ 1048588 4
          (by simp only [List.length_append, List.length_replicate, length_toLeBytes4, hm]; omega)]
        rw [drop3_exact _ _ _ _ 1048588
          (by simp only [List.length_replicate, length_toLeBytes4, hm])]
        rw [take_exact _ _ 4 (length_toLeBytes4 _)]
        rfl

/-- Witness for C10 at a concrete environment and input. -/
theorem gen_image_scheme_identifier_witness :
    demoEnv.magic.length = 8
    ∧ (encryption_unwrap_or_default Option.none = EncryptionType.none
      ∧ EncryptionType.toI32 .none = 0 ∧ EncryptionType.toI32 .sm4 = 1
      ∧ EncryptionType.toI32 .aes = 2
      ∧ toLeBytes4 0 = [0, 0, 0, 0] ∧ toLeBytes4 1 = [1, 0, 0, 0] ∧ toLeBytes4 2 = [2, 0, 0, 0]
      ∧ (gen_image demoEnv [5, 6] .sm4).map (fun img => (img.drop 1048588).take 4)
          = (gen_image demoEnv [5, 6] .sm4).map (fun _ => toLeBytes4 EncryptionType.sm4.toI32)) :=
  ⟨rfl, gen_image_scheme_identifier demoEnv [5, 6] .sm4 rfl⟩

/-- C1 (amended): for every scheme, the 4-byte little-endian `length` field
written immediately after the 8-byte magic equals the byte length of the
payload appended after the scheme's auth material, taken modulo 2^32
(because the code casts the `usize` length through `i32`); in particular it
equals the byte length exactly whenever the payload is shorter than 2^32
bytes. -/
theorem gen_image_length_field (env : Env) (fw : List Nat) (enc : EncryptionType)
    (hm : env.magic.length = 8) :
    (gen_image env fw enc).map (fun img => decodeLe4 ((img.drop 1048584).take 4))
      = (gen_image env fw enc).bind
          (fun _ => (schemePayloadE env fw enc).map (fun p => p.length % 4294967296))
    ∧ ∀ p, schemePayloadE env fw enc = .ok p → p.length < 4294967296 →
        (gen_image env fw enc).map (fun img => decodeLe4 ((img.drop 1048584).take 4))
          = (gen_image env fw enc).map (fun _ => p.length) := by
  have part1 : (gen_image env fw enc).map (fun img => decodeLe4 ((img.drop 1048584).take 4))
      = (gen_image env fw enc).bind
          (fun _ => (schemePayloadE env fw enc).map (fun p => p.length % 4294967296)) := by
    cases enc
    case none =>
      rw [gen_image_none_shape]
      simp only [Except.map, Except.bind, bind, schemePayloadE]
      rw [padTo512_drop_take _ 1048584 4
        (by simp only [List.length_append, List.length_replicate, length_toLeBytes4, hm]; omega)]
      rw [drop2_exact _ _ _ 1048584 (by simp only [List.length_replicate, hm])]
      rw [take_exact _ _ 4 (length_toLeBytes4 _)]
      rw [decodeLe4_toLeBytes4]
    case sm4 =>
      cases h : env.sm2SignPrehashWithK (sm2_e env (env.sm4CbcEncrypt (env.version ++ fw))) with
      | error e => rw [gen_image_sm4_shape_err env fw e h]; rfl
      | ok v =>
        obtain ⟨r, s⟩ := v
        rw [gen_image_sm4_shape_ok env fw r s h]
        simp only [Except.map, Except.bind, bind, schemePayloadE]
        rw [padTo512_drop_take _ 1048584 4
          (by simp only [List.length_append, List.length_replicate, length_toLeBytes4, hm]; omega)]
        rw [drop2_exact _ _ _ 1048584 (by simp only [List.length_replicate, hm])]
        rw [take_exact _ _ 4 (length_toLeBytes4 _)]
        rw [decodeLe4_toLeBytes4]
    case aes =>
      cases ha : env.aesGcmEncryptDetached (env.version ++ fw) with
      | error e =>
        rw [gen_image_aes_shape_errAes env fw e ha]; rfl
      | ok v =>
        obtain ⟨c, t⟩ := v
        cases hr : env.rsaSignTag t with
        | error e => rw [gen_image_aes_shape_errRsa env fw c t e ha hr]; rfl
        | ok sig =>
          rw [gen_image_aes_shape_ok env fw c t sig ha hr]
          simp only [Except.map, Except.bind, bind, schemePayloadE, ha]
          rw [padTo512_drop_take _ 1048584 4
            (by
              simp only [List.length_append, List.length_replicate, length_toLeBytes4, hm]
              omega)]
          rw [drop2_exact _ _ _ 1048584 (by simp only [List.length_replicate, hm])]
          rw [take_exact _ _ 4 (length_toLeBytes4 _)]
          rw [decodeLe4_toLeBytes4]
  refine ⟨part1, ?_⟩
  intro p hp hlt
  rw [part1, hp]
  cases hg : gen_image env fw enc with
  | error e => rfl
  | ok img =>
    simp only [Except.bind, bind, Except.map, Nat.mod_eq_of_lt hlt]

/-- Counterexample for C1 as stated: with a 2^32-byte input and the `None`
scheme, the versioned payload has 2^32 + 4 bytes but the header field
decodes to 4, because `firmware_with_version.len() as i32` wraps modulo
2^32 — so the field does not equal the payload length exactly. -/
theorem gen_image_length_field_cex :
    (gen_image demoEnv cexFw .none).map
        (fun img => decodeLe4 ((img.drop 1048584).take 4)) = .ok 4
    ∧ (schemePayloadE demoEnv cexFw .none).map (fun p => p.length) = .ok 4294967300
    ∧ (4 : Nat) ≠ 4294967300 := by
  have hfwlen : cexFw.length = 4294967296 := List.length_replicate _ _
  have hvlen : (demoEnv.version ++ cexFw).length = 4294967300 := by
    rw [List.length_append, hfwlen]
    rfl
  refine ⟨?_, ?_, by omega⟩
  · rw [gen_image_none_shape]
    simp only [Except.map]
    rw [padTo512_drop_take _ 1048584 4 (by
      simp only [List.length_append]
      rw [hfwlen]
      simp only [List.length_replicate]
      omega)]
    rw [drop2_exact _ _ _ 1048584 (by
      simp only [List.length_replicate]
      have hmg : demoEnv.magic.length = 8 := rfl
      omega)]
    rw [take_exact _ _ 4 (length_toLeBytes4 _)]
    rw [decodeLe4_toLeBytes4, hvlen]
  · simp only [schemePayloadE, Except.map]
    rw [hvlen]

/-- Witness for the amended C1 at a concrete environment and input. -/
theorem gen_image_length_field_witness :
    demoEnv.magic.length = 8
    ∧ ((gen_image demoEnv [1] .none).map (fun img => decodeLe4 ((img.drop 1048584).take 4))
        = (gen_image demoEnv [1] .none).bind
            (fun _ => (schemePayloadE demoEnv [1] .none).map (fun p => p.length % 4294967296))
      ∧ ∀ p, schemePayloadE demoEnv [1] .none = .ok p → p.length < 4294967296 →
          (gen_image demoEnv [1] .none).map (fun img => decodeLe4 ((img.drop 1048584).take 4))
            = (gen_image demoEnv [1] .none).map (fun _ => p.length)) :=
  ⟨rfl, gen_image_length_field demoEnv [1] .none rfl⟩

/-- C3: with the `None` scheme, the 516 bytes following the length and scheme
fields are the SHA-256 digest of (VERSION ‖ input) followed by 484 zero
bytes, and the versioned payload itself follows them unmodified (no
encryption). -/
theorem gen_image_none_digest (env : Env) (fw : List Nat)
    (hm : env.magic.length = 8)
    (hsha : (env.sha256 (env.version ++ fw)).length = 32) :
    (gen_image env fw .none).map (fun img => (img.drop 1048592).take 516)
      = .ok (env.sha256 (env.version ++ fw) ++ List.replicate 484 0)
    ∧ (gen_image env fw .none).map (fun img => (img.drop 1049108).take (env.version ++ fw).length)
      = .ok (env.version ++ fw) := by
  constructor
  · rw [gen_image_none_shape]
    simp only [Except.map]
    rw [padTo512_drop_take _ 1048592 516 (by
      simp only [List.length_append, List.length_replicate, length_toLeBytes4, hm, hsha]
      omega)]
    rw [drop4_exact _ _ _ _ _ 1048592 (by
      simp only [List.length_replicate, length_toLeBytes4, hm])]
    rw [take2_exact _ _ _ 516 (by simp only [List.length_replicate, hsha])]
  · rw [gen_image_none_shape]
    simp only [Except.map]
    rw [padTo512_drop_take _ 1049108 (env.version ++ fw).length (by
      simp only [List.length_append, List.length_replicate, length_toLeBytes4, hm, hsha]
      omega)]
    rw [drop6_exact _ _ _ _ _ _ _ 1049108 (by
      simp only [List.length_replicate, length_toLeBytes4, hm, hsha])]
    rw [List.take_length]

/-- Witness for C3 at a concrete environment and input. -/
theorem gen_image_none_digest_witness :
    demoEnv.magic.length = 8
    ∧ (demoEnv.sha256 (demoEnv.version ++ [9])).length = 32
    ∧ ((gen_image demoEnv [9] .none).map (fun img => (img.drop 1048592).take 516)
        = .ok (demoEnv.sha256 (demoEnv.version ++ [9]) ++ List.replicate 484 0)
      ∧ (gen_image demoEnv [9] .none).map
          (fun img => (img.drop 1049108).take (demoEnv.version ++ [9]).length)
        = .ok (demoEnv.version ++ [9])) :=
  ⟨rfl, rfl, gen_image_none_digest demoEnv [9] rfl rfl⟩

/-! ## ELF-side helper lemmas -/

theorem u64add_lt (x y : Nat) : u64add x y < 18446744073709551616 := by
  unfold u64add
  exact Nat.mod_lt _ (by norm_num)

theorem u64add_eq_of_lt (x y : Nat) (h : x + y < 18446744073709551616) :
    u64add x y = x + y := by
  unfold u64add
  omega

theorem copyLen_le_data (e : Entry) : copyLen e ≤ e.data.length := by
  unfold copyLen
  omega

theorem copyLen_eq_data (e : Entry) (h : e.fileSize = e.data.length) :
    copyLen e = e.data.length := by
  unfold copyLen
  omega

theorem length_take_copyLen (e : Entry) :
    (e.data.take (copyLen e)).length = copyLen e := by
  rw [List.length_take]
  have := copyLen_le_data e
  omega

theorem foldl_min_le_init (l : List Nat) (a : Nat) : l.foldl min a ≤ a := by
  induction l generalizing a with
  | nil => exact Nat.le_refl a
  | cons b tb ih =>
    rw [List.foldl_cons]
    exact Nat.le_trans (ih (min a b)) (by omega)

theorem foldl_min_le_of_mem (l : List Nat) (a x : Nat) (hx : x ∈ l) :
    l.foldl min a ≤ x := by
  induction l generalizing a with
  | nil => cases hx
  | cons b tb ih =>
    rw [List.foldl_cons]
    rcases List.mem_cons.mp hx with rfl | htb
    · exact Nat.le_trans (foldl_min_le_init tb (min a x)) (by omega)
    · exact ih (min a b) htb

theorem foldl_min_mem_or (l : List Nat) (a : Nat) :
    l.foldl min a = a ∨ l.foldl min a ∈ l := by
  induction l generalizing a with
  | nil => exact Or.inl rfl
  | cons b tb ih =>
    rw [List.foldl_cons]
    rcases ih (min a b) with h | h
    · rcases Nat.le_total a b with hab | hba
      · exact Or.inl (by omega)
      · refine Or.inr (List.mem_cons.mpr (Or.inl ?_))
        omega
    · exact Or.inr (List.mem_cons_of_mem _ h)

theorem listMinD_le_mem (l : List Nat) (x : Nat) (hx : x ∈ l) : listMinD l ≤ x := by
  cases l with
  | nil => cases hx
  | cons a tl =>
    simp only [listMinD]
    rcases List.mem_cons.mp hx with rfl | htl
    · exact foldl_min_le_init tl x
    · exact foldl_min_le_of_mem tl a x htl

theorem listMinD_mem (l : List Nat) (h : l ≠ []) : listMinD l ∈ l := by
  cases l with
  | nil => exact absurd rfl h
  | cons a tl =>
    simp only [listMinD]
    rcases foldl_min_mem_or tl a with h1 | h1
    · rw [h1]
      exact List.mem_cons_self _ _
    · exact List.mem_cons_of_mem _ h1

theorem listMinD_eq_of_le (a : Nat) (l : List Nat) (ha : a ∈ l)
    (h : ∀ x ∈ l, a ≤ x) : listMinD l = a :=
  Nat.le_antisymm (listMinD_le_mem l a ha)
    (h _ (listMinD_mem l (by intro hnil; rw [hnil] at ha; cases ha)))

theorem foldl_max_init_le (l : List Nat) (a : Nat) : a ≤ l.foldl max a := by
  induction l generalizing a with
  | nil => exact Nat.le_refl a
  | cons b tb ih =>
    rw [List.foldl_cons]
    exact Nat.le_trans (by omega) (ih (max a b))

theorem foldl_max_le_of_mem (l : List Nat) (a x : Nat) (hx : x ∈ l) :
    x ≤ l.foldl max a := by
  induction l generalizing a with
  | nil => cases hx
  | cons b tb ih =>
    rw [List.foldl_cons]
    rcases List.mem_cons.mp hx with rfl | htb
    · exact Nat.le_trans (by omega) (foldl_max_init_le tb (max a x))
    · exact ih _ htb

theorem foldl_max_lt (l : List Nat) (a B : Nat) (ha : a < B) (h : ∀ x ∈ l, x < B) :
    l.foldl max a < B := by
  induction l generalizing a with
  | nil => exact ha
  | cons b tb ih =>
    rw [List.foldl_cons]
    exact ih (max a b) (by have := h b (List.mem_cons_self _ _); omega)
      (fun x hx => h x (List.mem_cons_of_mem _ hx))

theorem foldl_max_perm (l l' : List Nat) (h : l.Perm l') (a : Nat) :
    l.foldl max a = l'.foldl max a :=
  @List.Perm.foldl_eq _ _ _ _ _ ⟨fun b a₁ a₂ => by omega⟩ h a

theorem listMinD_perm (l l' : List Nat) (h : l.Perm l') : listMinD l = listMinD l' := by
  cases hl : l with
  | nil =>
    subst hl
    rw [h.nil_eq]
  | cons a tl =>
    subst hl
    have hne : a :: tl ≠ [] := by simp
    have hne2 : l' ≠ [] := by
      intro hl2
      subst hl2
      exact hne h.eq_nil
    apply Nat.le_antisymm
    · exact listMinD_le_mem _ _ (h.mem_iff.mpr (listMinD_mem l' hne2))
    · exact listMinD_le_mem _ _ (h.mem_iff.mp (listMinD_mem _ hne))

theorem collectFn_fileSize (s : ElfSection) (e : Entry) (h : collectFn s = some e) :
    e.fileSize = e.data.length := by
  unfold collectFn at h
  by_cases hk : s.kind = SecKind.uninitializedData
  · rw [if_pos hk] at h
    cases h
  · rw [if_neg hk] at h
    rcases hr : s.fileRange with _ | fr <;> rcases hd : s.data with _ | d <;>
      rw [hr, hd] at h <;> cases h
    rfl

theorem collectEntries_fileSize (l : List ElfSection) :
    ∀ e ∈ collectEntries l, e.fileSize = e.data.length := by
  intro e he
  simp only [collectEntries, List.mem_filterMap] at he
  obtain ⟨s, _, hf⟩ := he
  exact collectFn_fileSize s e hf

theorem collectFn_none_of_dataNone (s : ElfSection) (hd : s.data = Option.none) :
    collectFn s = Option.none := by
  unfold collectFn
  by_cases hk : s.kind = SecKind.uninitializedData
  · rw [if_pos hk]
  · rw [if_neg hk]
    rcases s.fileRange with _ | fr <;> rw [hd]

theorem filterMap_filter_of_none {α β : Type} (f : α → Option β) (q : α → Bool)
    (hfq : ∀ a, q a = false → f a = Option.none) (l : List α) :
    (l.filter q).filterMap f = l.filterMap f := by
  induction l with
  | nil => rfl
  | cons a tl ih =>
    rw [List.filter_cons]
    cases hq : q a
    · rw [if_neg (by simp)]
      rw [ih, List.filterMap_cons, hfq a hq]
    · rw [if_pos rfl]
      rw [List.filterMap_cons, List.filterMap_cons, ih]

theorem collectEntries_filter_dataSome (l : List ElfSection) :
    collectEntries (l.filter (fun s => s.data.isSome)) = collectEntries l := by
  unfold collectEntries
  apply filterMap_filter_of_none
  intro s hs
  apply collectFn_none_of_dataNone
  rcases hd : s.data with _ | d
  · rfl
  · rw [hd] at hs
    cases hs

theorem writeAt_length (out src : List Nat) (s : Nat) (h : s + src.length ≤ out.length) :
    (writeAt out s src).length = out.length := by
  simp only [writeAt, List.length_append, List.length_take, List.length_drop]
  omega

theorem writeAt_getElem (out src : List Nat) (s p : Nat) (h : s + src.length ≤ out.length) :
    (writeAt out s src)[p]? = if s ≤ p ∧ p < s + src.length then src[p - s]? else out[p]? := by
  have hts : (List.take s out).length = s := by
    rw [List.length_take]
    omega
  unfold writeAt
  rw [List.append_assoc]
  by_cases h1 : p < s
  · rw [List.getElem?_append_left (by rw [hts]; exact h1)]
    rw [List.getElem?_take, if_pos h1, if_neg (by omega)]
  · rw [List.getElem?_append_right (by rw [hts]; omega)]
    rw [hts]
    by_cases h2 : p < s + src.length
    · rw [List.getElem?_append_left (by omega)]
      rw [if_pos ⟨by omega, h2⟩]
    · rw [List.getElem?_append_right (by omega)]
      rw [List.getElem?_drop]
      have hidx : s + src.length + (p - s - src.length) = p := by omega
      rw [hidx, if_neg (by omega)]

theorem writeEntry_length (minOff : Nat) (out : List Nat) (e : Entry)
    (h : e.fileOff - minOff + copyLen e ≤ out.length) :
    (writeEntry minOff out e).length = out.length := by
  unfold writeEntry
  apply writeAt_length
  rw [length_take_copyLen]
  exact h

theorem writeEntry_getElem (minOff : Nat) (out : List Nat) (e : Entry) (p : Nat)
    (h : e.fileOff - minOff + copyLen e ≤ out.length) :
    (writeEntry minOff out e)[p]? =
      if e.fileOff - minOff ≤ p ∧ p < e.fileOff - minOff + copyLen e
      then e.data[p - (e.fileOff - minOff)]? else out[p]? := by
  unfold writeEntry
  rw [writeAt_getElem out _ _ p (by rw [length_take_copyLen]; exact h)]
  rw [length_take_copyLen]
  by_cases hc : e.fileOff - minOff ≤ p ∧ p < e.fileOff - minOff + copyLen e
  · rw [if_pos hc, if_pos hc, List.getElem?_take, if_pos (by omega)]
  · rw [if_neg hc, if_neg hc]

theorem writeAll_cons (minOff : Nat) (out : List Nat) (a : Entry) (tl : List Entry) :
    writeAll minOff out (a :: tl) = writeAll minOff (writeEntry minOff out a) tl := rfl

theorem writeAll_length (minOff : Nat) (es : List Entry) (out : List Nat)
    (h : ∀ e ∈ es, e.fileOff - minOff + copyLen e ≤ out.length) :
    (writeAll minOff out es).length = out.length := by
  induction es generalizing out with
  | nil => rfl
  | cons a tl ih =>
    rw [writeAll_cons]
    have ha := h a (List.mem_cons_self _ _)
    have hwe := writeEntry_length minOff out a ha
    rw [ih (writeEntry minOff out a)
      (fun e he => by rw [hwe]; exact h e (List.mem_cons_of_mem _ he))]
    exact hwe

theorem writeAll_getElem_out (minOff : Nat) (es : List Entry) (out : List Nat) (p : Nat)
    (hlen : ∀ e ∈ es, e.fileOff - minOff + copyLen e ≤ out.length)
    (hnc : ∀ e ∈ es, ¬ coversOut minOff e p) :
    (writeAll minOff out es)[p]? = out[p]? := by
  induction es generalizing out with
  | nil => rfl
  | cons a tl ih =>
    rw [writeAll_cons]
    have ha := hlen a (List.mem_cons_self _ _)
    have hwe := writeEntry_length minOff out a ha
    rw [ih (writeEntry minOff out a)
      (fun e he => by rw [hwe]; exact hlen e (List.mem_cons_of_mem _ he))
      (fun e he => hnc e (List.mem_cons_of_mem _ he))]
    rw [writeEntry_getElem minOff out a p ha]
    have hnca := hnc a (List.mem_cons_self _ _)
    unfold coversOut at hnca
    rw [if_neg hnca]

theorem writeAll_getElem_covered (minOff : Nat) (es : List Entry) (out : List Nat) (p : Nat)
    (e : Entry)
    (hlen : ∀ x ∈ es, x.fileOff - minOff + copyLen x ≤ out.length)
    (hdisj : es.Pairwise (entryDisjoint minOff))
    (he : e ∈ es) (hc : coversOut minOff e p) :
    (writeAll minOff out es)[p]? = e.data[p - (e.fileOff - minOff)]? := by
  induction es generalizing out with
  | nil => cases he
  | cons a tl ih =>
    rw [writeAll_cons]
    have ha := hlen a (List.mem_cons_self _ _)
    have hwe := writeEntry_length minOff out a ha
    have hlen2 : ∀ x ∈ tl, x.fileOff - minOff + copyLen x ≤ (writeEntry minOff out a).length :=
      fun x hx => by rw [hwe]; exact hlen x (List.mem_cons_of_mem _ hx)
    rcases List.mem_cons.mp he with rfl | hetl
    · have hnc : ∀ x ∈ tl, ¬ coversOut minOff x p := by
        intro x hx hcx
        have hd := (List.pairwise_cons.mp hdisj).1 x hx
        unfold entryDisjoint at hd
        unfold coversOut at hc hcx
        omega
      rw [writeAll_getElem_out minOff tl (writeEntry minOff out e) p hlen2 hnc]
      rw [writeEntry_getElem minOff out e p ha]
      unfold coversOut at hc
      rw [if_pos hc]
    · exact ih (writeEntry minOff out a) hlen2 (List.pairwise_cons.mp hdisj).2 hetl

theorem rustSortByOffset_ok (l : List ElfSection) (h : ∀ s ∈ l, s.fileRange.isSome = true) :
    ∃ l2, rustSortByOffset l = .ok l2 ∧ l2.Perm l := by
  unfold rustSortByOffset
  by_cases h1 : l.length ≤ 1
  · rw [if_pos h1]
    exact ⟨l, rfl, List.Perm.refl l⟩
  · rw [if_neg h1, if_pos (List.all_eq_true.mpr h)]
    exact ⟨_, rfl, List.mergeSort_perm l _⟩

theorem elf_to_bin_ok_form (ss : List ElfSection)
    (hRange : ∀ s ∈ ss, isLoadableSelected s = true → s.fileRange.isSome = true) :
    ∃ l2, elf_to_bin_bytes ss = process_sections l2
      ∧ l2.Perm (ss.filter isLoadableSelected) := by
  have hfil : ∀ s ∈ ss.filter isLoadableSelected, s.fileRange.isSome = true := by
    intro s hs
    have := List.mem_filter.mp hs
    exact hRange s this.1 this.2
  obtain ⟨l1, h1, p1⟩ := rustSortByOffset_ok (ss.filter isLoadableSelected) hfil
  obtain ⟨l2, h2, p2⟩ := rustSortByOffset_ok l1 (fun s hs => hfil s (p1.subset hs))
  refine ⟨l2, ?_, p2.trans p1⟩
  simp only [elf_to_bin_bytes, get_loadable_sections, sort_sections_with_offset,
    h1, h2, bind, Except.bind]

theorem process_sections_spec (l : List ElfSection)
    (hBound : ∀ e ∈ collectEntries l, e.fileOff + e.data.length < 18446744073709551616)
    (hdisj : (collectEntries l).Pairwise
      (fun a b => a.fileOff + a.data.length ≤ b.fileOff ∨ b.fileOff + b.data.length ≤ a.fileOff)) :
    ∃ out, process_sections l = .ok out
      ∧ out.length = entriesMaxEnd (collectEntries l) - entriesMinOff (collectEntries l)
      ∧ (∀ e ∈ collectEntries l, ∀ i, i < e.data.length →
          out[e.fileOff - entriesMinOff (collectEntries l) + i]? = e.data[i]?)
      ∧ (∀ p, p < out.length →
          (∀ e ∈ collectEntries l, p < e.fileOff - entriesMinOff (collectEntries l)
            ∨ e.fileOff - entriesMinOff (collectEntries l) + e.data.length ≤ p) →
          out[p]? = some 0)
      ∧ (collectEntries l = [] → out = []) := by
  by_cases hl : l = []
  · subst hl
    refine ⟨[], rfl, rfl, ?_, ?_, fun _ => rfl⟩
    · intro e he
      cases he
    · intro p hp
      cases hp
  · by_cases hE : collectEntries l = []
    · refine ⟨[], ?_, ?_, ?_, ?_, fun _ => rfl⟩
      · simp only [process_sections]
        rw [if_neg hl, if_pos hE]
      · rw [hE]
        rfl
      · intro e he
        rw [hE] at he
        cases he
      · intro p hp
        cases hp
    · -- the main case: at least one entry
      cases hs : (collectEntries l).mergeSort (fun a b => a.fileOff ≤ b.fileOff) with
      | nil =>
        exfalso
        have := @List.length_mergeSort Entry (fun a b => decide (a.fileOff ≤ b.fileOff))
          (collectEntries l)
        rw [hs] at this
        exact hE (List.length_eq_zero.mp this.symm)
      | cons e0 rest =>
        have hperm : (e0 :: rest).Perm (collectEntries l) := by
          rw [← hs]
          exact List.mergeSort_perm (collectEntries l) _
        have hsorted : (e0 :: rest).Pairwise (fun a b => a.fileOff ≤ b.fileOff) := by
          have h1 := @List.sorted_mergeSort Entry
            (fun (a b : Entry) => decide (a.fileOff ≤ b.fileOff))
            (fun a b c hab hbc => by
              simp only [decide_eq_true_eq] at hab hbc ⊢
              omega)
            (fun a b => by
              simp only [Bool.or_eq_true, decide_eq_true_eq]
              omega)
            (collectEntries l)
          rw [hs] at h1
          exact h1.imp (fun h => by simpa using h)
        have hfs : ∀ e ∈ collectEntries l, e.fileSize = e.data.length :=
          collectEntries_fileSize l
        have hminle : ∀ x ∈ (collectEntries l).map (fun e => e.fileOff), e0.fileOff ≤ x := by
          intro x hx
          obtain ⟨e, heE, rfl⟩ := List.mem_map.mp hx
          have heS : e ∈ e0 :: rest := hperm.mem_iff.mpr heE
          rcases List.mem_cons.mp heS with rfl | hr
          · exact Nat.le_refl _
          · exact (List.pairwise_cons.mp hsorted).1 e hr
        have hmin : entriesMinOff (collectEntries l) = e0.fileOff := by
          unfold entriesMinOff
          exact listMinD_eq_of_le _ _
            (List.mem_map_of_mem _ (hperm.mem_iff.mp (List.mem_cons_self _ _))) hminle
        have hmapeq : (e0 :: rest).map (fun e => u64add e.fileOff e.fileSize)
            = (e0 :: rest).map (fun e => e.fileOff + e.fileSize) := by
          apply List.map_congr_left
          intro x hx
          have hxE := hperm.mem_iff.mp hx
          apply u64add_eq_of_lt
          rw [hfs x hxE]
          exact hBound x hxE
        have hmax : ((e0 :: rest).map (fun e => u64add e.fileOff e.fileSize)).foldl max 0
            = entriesMaxEnd (collectEntries l) := by
          rw [hmapeq]
          exact foldl_max_perm _ _ (hperm.map _) 0
        have hmaxlt : ((e0 :: rest).map (fun e => u64add e.fileOff e.fileSize)).foldl max 0
            < 18446744073709551616 := by
          apply foldl_max_lt _ _ _ (by norm_num)
          intro x hx
          obtain ⟨e, _, rfl⟩ := List.mem_map.mp hx
          exact u64add_lt _ _
        have hcheck : ((e0 :: rest).map (fun e => u64add e.fileOff e.fileSize)).foldl max 0
            - e0.fileOff ≤ USIZE_MAX := by
          unfold USIZE_MAX
          omega
        have hle_max : ∀ e ∈ e0 :: rest, e.fileOff + e.fileSize
            ≤ ((e0 :: rest).map (fun x => u64add x.fileOff x.fileSize)).foldl max 0 := by
          intro e he
          rw [hmapeq]
          exact foldl_max_le_of_mem _ 0 _ (List.mem_map_of_mem _ he)
        have hlenS : ∀ e ∈ e0 :: rest, e.fileOff - e0.fileOff + copyLen e
            ≤ ((e0 :: rest).map (fun x => u64add x.fileOff x.fileSize)).foldl max 0
              - e0.fileOff := by
          intro e he
          have heE := hperm.mem_iff.mp he
          have h1 := copyLen_eq_data e (hfs e heE)
          have h2 := hle_max e he
          have h3 := hminle _ (List.mem_map_of_mem _ heE)
          rw [hfs e heE] at h2
          omega
        have hdisjS : (e0 :: rest).Pairwise (entryDisjoint e0.fileOff) := by
          have hd1 : (collectEntries l).Pairwise
              (fun a b => a.fileOff + a.data.length ≤ b.fileOff
                ∨ b.fileOff + b.data.length ≤ a.fileOff) := hdisj
          have hd2 := hd1.perm hperm.symm (fun h => h.symm)
          exact hd2.imp_of_mem (fun ha hb hab => by
            have haE := hperm.mem_iff.mp ha
            have hbE := hperm.mem_iff.mp hb
            unfold entryDisjoint
            rw [copyLen_eq_data _ (hfs _ haE), copyLen_eq_data _ (hfs _ hbE)]
            have h3 := hminle _ (List.mem_map_of_mem _ haE)
            have h4 := hminle _ (List.mem_map_of_mem _ hbE)
            omega)
        have hlenR : ∀ e ∈ e0 :: rest, e.fileOff - e0.fileOff + copyLen e
            ≤ (List.replicate (((e0 :: rest).map
                (fun x => u64add x.fileOff x.fileSize)).foldl max 0 - e0.fileOff)
              (0 : Nat)).length := by
          rw [List.length_replicate]
          exact hlenS
        refine ⟨writeAll e0.fileOff
            (List.replicate (((e0 :: rest).map (fun x => u64add x.fileOff x.fileSize)).foldl max 0
              - e0.fileOff) 0) (e0 :: rest), ?_, ?_, ?_, ?_, fun hemp => absurd hemp hE⟩
        · simp only [process_sections]
          rw [if_neg hl, if_neg hE]
          simp only [hs]
          rw [if_pos hcheck]
        · rw [writeAll_length _ _ _ hlenR]
          rw [List.length_replicate, hmax, hmin]
        · intro e heE i hi
          have heS := hperm.mem_iff.mpr heE
          have hcle := copyLen_eq_data e (hfs e heE)
          rw [hmin]
          have hcov : coversOut e0.fileOff e (e.fileOff - e0.fileOff + i) := by
            unfold coversOut
            omega
          rw [writeAll_getElem_covered e0.fileOff (e0 :: rest) _ _ e hlenR hdisjS heS hcov]
          have hidx : e.fileOff - e0.fileOff + i - (e.fileOff - e0.fileOff) = i := by omega
          rw [hidx]
        · intro p hp hnone
          rw [hmin] at hnone
          rw [writeAll_length _ _ _ hlenR, List.length_replicate] at hp
          have hncS : ∀ x ∈ e0 :: rest, ¬ coversOut e0.fileOff x p := by
            intro x hx hcx
            have hxE := hperm.mem_iff.mp hx
            have h5 := hnone x hxE
            unfold coversOut at hcx
            rw [copyLen_eq_data x (hfs x hxE)] at hcx
            omega
          rw [writeAll_getElem_out _ _ _ _ hlenR hncS]
          rw [List.getElem?_replicate, if_pos hp]

theorem process_sections_isOk (l : List ElfSection) : (process_sections l).isOk = true := by
  by_cases hl : l = []
  · simp only [process_sections]
    rw [if_pos hl]
    rfl
  · by_cases hE : collectEntries l = []
    · simp only [process_sections]
      rw [if_neg hl, if_pos hE]
      rfl
    · cases hs : (collectEntries l).mergeSort (fun a b => a.fileOff ≤ b.fileOff) with
      | nil =>
        exfalso
        have := @List.length_mergeSort Entry (fun a b => decide (a.fileOff ≤ b.fileOff))
          (collectEntries l)
        rw [hs] at this
        exact hE (List.length_eq_zero.mp this.symm)
      | cons e0 rest =>
        have hmaxlt : ((e0 :: rest).map (fun e => u64add e.fileOff e.fileSize)).foldl max 0
            < 18446744073709551616 := by
          apply foldl_max_lt _ _ _ (by norm_num)
          intro x hx
          obtain ⟨e, _, rfl⟩ := List.mem_map.mp hx
          exact u64add_lt _ _
        have hcheck : ((e0 :: rest).map (fun e => u64add e.fileOff e.fileSize)).foldl max 0
            - e0.fileOff ≤ USIZE_MAX := by
          unfold USIZE_MAX
          omega
        simp only [process_sections]
        rw [if_neg hl, if_neg hE]
        simp only [hs]
        rw [if_pos hcheck]
        rfl

/-- C4: `elf_to_bin_bytes` on a well-formed section table (all selected
sections resolve a file range, entry ranges fit in `u64` and are pairwise
disjoint) succeeds and returns the flat binary: a buffer of size
`max_end − min_off` holding every selected, file-backed section's bytes at
position `offset − min_off`, zero elsewhere; zero-initialized (bss) sections
are excluded by selection, and if no entry qualifies the result is the empty
buffer rather than an error. -/
theorem elf_to_bin_bytes_spec (ss : List ElfSection)
    (hRange : ∀ s ∈ ss, isLoadableSelected s = true → s.fileRange.isSome = true)
    (hBound : ∀ e ∈ entriesOf ss, e.fileOff + e.data.length < 18446744073709551616)
    (hdisj : (entriesOf ss).Pairwise
      (fun a b => a.fileOff + a.data.length ≤ b.fileOff
        ∨ b.fileOff + b.data.length ≤ a.fileOff)) :
    ∃ out, elf_to_bin_bytes ss = .ok out
      ∧ out.length = maxEndOf ss - minOffOf ss
      ∧ (∀ e ∈ entriesOf ss, ∀ i, i < e.data.length →
          out[e.fileOff - minOffOf ss + i]? = e.data[i]?)
      ∧ (∀ p, p < out.length →
          (∀ e ∈ entriesOf ss, p < e.fileOff - minOffOf ss
            ∨ e.fileOff - minOffOf ss + e.data.length ≤ p) →
          out[p]? = some 0)
      ∧ (entriesOf ss = [] → out = []) := by
  obtain ⟨l2, hform, hp⟩ := elf_to_bin_ok_form ss hRange
  have hpe : (collectEntries l2).Perm (entriesOf ss) := by
    unfold entriesOf collectEntries
    exact hp.filterMap collectFn
  have hmin : entriesMinOff (collectEntries l2) = minOffOf ss := by
    unfold minOffOf entriesMinOff
    exact listMinD_perm _ _ (hpe.map _)
  have hmax : entriesMaxEnd (collectEntries l2) = maxEndOf ss := by
    unfold maxEndOf entriesMaxEnd
    exact foldl_max_perm _ _ (hpe.map _) 0
  obtain ⟨out, hout, hlen, hcov, hzero, hemp⟩ := process_sections_spec l2
    (fun e he => hBound e (hpe.mem_iff.mp he))
    (hdisj.perm hpe.symm (fun h => h.symm))
  refine ⟨out, by rw [hform]; exact hout, by rw [hlen, hmin, hmax], ?_, ?_, ?_⟩
  · intro e he i hi
    have h1 := hcov e (hpe.mem_iff.mpr he) i hi
    rw [hmin] at h1
    exact h1
  · intro p hp2 hnone
    apply hzero p hp2
    intro e he
    have h1 := hnone e (hpe.mem_iff.mp he)
    rw [hmin]
    exact h1
  · intro h0
    exact hemp ((h0 ▸ hpe).eq_nil)

/-- Witness for C4 at a concrete section table: a `.text` and a `.data`
section with contiguous file ranges and a `.bss` section between them. -/
theorem elf_to_bin_bytes_spec_witness :
    (∀ s ∈ [demoTextSec, demoBssSec, demoDataSec],
        isLoadableSelected s = true → s.fileRange.isSome = true)
    ∧ (∀ e ∈ entriesOf [demoTextSec, demoBssSec, demoDataSec],
        e.fileOff + e.data.length < 18446744073709551616)
    ∧ (entriesOf [demoTextSec, demoBssSec, demoDataSec]).Pairwise
        (fun a b => a.fileOff + a.data.length ≤ b.fileOff
          ∨ b.fileOff + b.data.length ≤ a.fileOff)
    ∧ (∃ out, elf_to_bin_bytes [demoTextSec, demoBssSec, demoDataSec] = .ok out
      ∧ out.length = maxEndOf [demoTextSec, demoBssSec, demoDataSec]
          - minOffOf [demoTextSec, demoBssSec, demoDataSec]
      ∧ (∀ e ∈ entriesOf [demoTextSec, demoBssSec, demoDataSec], ∀ i, i < e.data.length →
          out[e.fileOff - minOffOf [demoTextSec, demoBssSec, demoDataSec] + i]? = e.data[i]?)
      ∧ (∀ p, p < out.length →
          (∀ e ∈ entriesOf [demoTextSec, demoBssSec, demoDataSec],
            p < e.fileOff - minOffOf [demoTextSec, demoBssSec, demoDataSec]
            ∨ e.fileOff - minOffOf [demoTextSec, demoBssSec, demoDataSec] + e.data.length ≤ p) →
          out[p]? = some 0)
      ∧ (entriesOf [demoTextSec, demoBssSec, demoDataSec] = [] → out = [])) :=
  ⟨by decide, by decide, by decide,
    elf_to_bin_bytes_spec [demoTextSec, demoBssSec, demoDataSec]
      (by decide) (by decide) (by decide)⟩

/-- C5 (amended): when every selected section's file range resolves,
`elf_to_bin_bytes` succeeds, and a selected section whose raw data cannot be
resolved is silently omitted (it contributes no entry — filtering the
data-unresolvable sections away leaves the entry list unchanged).  A
section whose *file range* cannot be resolved is NOT merely skipped: the
offset sort panics (see the counterexample). -/
theorem elf_to_bin_bytes_skip_policy (ss : List ElfSection)
    (hRange : ∀ s ∈ ss, isLoadableSelected s = true → s.fileRange.isSome = true) :
    (elf_to_bin_bytes ss).isOk = true
    ∧ entriesOf ss = entriesOf (ss.filter (fun s => s.data.isSome)) := by
  constructor
  · obtain ⟨l2, hform, _⟩ := elf_to_bin_ok_form ss hRange
    rw [hform]
    exact process_sections_isOk l2
  · unfold entriesOf
    calc collectEntries (List.filter isLoadableSelected ss)
        = collectEntries (List.filter (fun s => s.data.isSome)
            (List.filter isLoadableSelected ss)) :=
          (collectEntries_filter_dataSome _).symm
      _ = collectEntries (List.filter
            (fun s => s.data.isSome && isLoadableSelected s) ss) := by
          rw [List.filter_filter]
      _ = collectEntries (List.filter
            (fun s => isLoadableSelected s && s.data.isSome) ss) := by
          rw [List.filter_congr (fun a _ => Bool.and_comm _ _)]
      _ = collectEntries (List.filter isLoadableSelected
            (List.filter (fun s => s.data.isSome) ss)) := by
          rw [List.filter_filter]

/-- Witness for the amended C5: a selected section whose `data()` fails is
skipped without failing the conversion. -/
theorem elf_to_bin_bytes_skip_policy_witness :
    (∀ s ∈ [badDataSec, demoTextSec],
        isLoadableSelected s = true → s.fileRange.isSome = true)
    ∧ ((elf_to_bin_bytes [badDataSec, demoTextSec]).isOk = true
      ∧ entriesOf [badDataSec, demoTextSec]
          = entriesOf ([badDataSec, demoTextSec].filter (fun s => s.data.isSome))) :=
  ⟨by decide, elf_to_bin_bytes_skip_policy [badDataSec, demoTextSec] (by decide)⟩

/-- Counterexample for C5 as stated: a selected (allocation-flagged,
non-uninitialized) section whose file byte-range cannot be resolved makes
`elf_to_bin_bytes` abort — `get_section_offset`'s
`.expect("Section file range not found!")` panics inside the offset sort as
soon as at least two sections are selected — rather than being silently
omitted. -/
theorem elf_to_bin_bytes_panic_cex :
    isLoadableSelected badRangeSec = true
    ∧ badRangeSec.fileRange = Option.none
    ∧ elf_to_bin_bytes [badRangeSec, demoDataSec]
        = .error XtaskError.panicSectionOffset := by
  refine ⟨by decide, by decide, rfl⟩

/-- C6: a section's write into the flattened buffer copies exactly
`min(actual_data_len, recorded_file_size)` bytes: positions
`offset − min_off + j` for `j < min(data_len, file_size)` receive the
section's bytes and every other position is untouched; moreover the entry
gathering records `file_size` as the actual resolved data length, so a
container whose declared section size disagrees with its data is never
rejected. -/
theorem writeEntry_copies_min (ss : List ElfSection) (minOff : Nat) (out : List Nat) (e : Entry)
    (h : e.fileOff - minOff + copyLen e ≤ out.length) :
    copyLen e = min e.data.length e.fileSize
    ∧ (writeEntry minOff out e).length = out.length
    ∧ (∀ p, (writeEntry minOff out e)[p]? =
        if e.fileOff - minOff ≤ p ∧ p < e.fileOff - minOff + min e.data.length e.fileSize
        then e.data[p - (e.fileOff - minOff)]? else out[p]?)
    ∧ (∀ e2 ∈ entriesOf ss, e2.fileSize = e2.data.length) := by
  refine ⟨rfl, writeEntry_length minOff out e h, ?_, ?_⟩
  · intro p
    exact writeEntry_getElem minOff out e p h
  · intro e2 he2
    exact collectEntries_fileSize _ e2 he2

/-- Witness for C6 at a concrete entry and buffer. -/
theorem writeEntry_copies_min_witness :
    ((⟨".text", 2, 3, [7, 8, 9]⟩ : Entry).fileOff - 0
        + copyLen ⟨".text", 2, 3, [7, 8, 9]⟩ ≤ (List.replicate 8 0 : List Nat).length)
    ∧ (copyLen ⟨".text", 2, 3, [7, 8, 9]⟩
        = min (Entry.data ⟨".text", 2, 3, [7, 8, 9]⟩).length
            (Entry.fileSize ⟨".text", 2, 3, [7, 8, 9]⟩)
      ∧ (writeEntry 0 (List.replicate 8 0) ⟨".text", 2, 3, [7, 8, 9]⟩).length
          = (List.replicate 8 0 : List Nat).length
      ∧ (∀ p, (writeEntry 0 (List.replicate 8 0) ⟨".text", 2, 3, [7, 8, 9]⟩)[p]? =
          if (Entry.fileOff ⟨".text", 2, 3, [7, 8, 9]⟩) - 0 ≤ p
            ∧ p < (Entry.fileOff ⟨".text", 2, 3, [7, 8, 9]⟩) - 0
              + min (Entry.data ⟨".text", 2, 3, [7, 8, 9]⟩).length
                  (Entry.fileSize ⟨".text", 2, 3, [7, 8, 9]⟩)
          then (Entry.data ⟨".text", 2, 3, [7, 8, 9]⟩)[p
            - ((Entry.fileOff ⟨".text", 2, 3, [7, 8, 9]⟩) - 0)]?
          else (List.replicate 8 0 : List Nat)[p]?)
      ∧ (∀ e2 ∈ entriesOf [demoTextSec], e2.fileSize = e2.data.length)) :=
  ⟨by decide,
    writeEntry_copies_min [demoTextSec] 0 (List.replicate 8 0) ⟨".text", 2, 3, [7, 8, 9]⟩
      (by decide)⟩
